import Mathlib

/-!
Verification of the vec-of-enum wrapper contract.

The repository is a Rust macro crate whose single macro expands into a
newtype wrapper around a growable sequence of enum values, together with a
fixed set of trait implementations. We shallow-embed the generated code:

  * the generated struct (define_struct) is a one-field structure over a
    list of elements;
  * the Rust trait bound `impl Into<Element>` on push / extend_from /
    From<VariantSource> is modelled by an explicit conversion function
    `f : γ → α` passed to the operation;
  * Vec<Element> is modelled as List α; Vec::push appends at the end;
  * iteration and Deref simply expose the inner list, and reference
    iteration additionally returns the (unchanged) wrapper state, so the
    frame property of borrowing is visible in the pure model.
-/

namespace VecOfEnum

/-- The generated wrapper struct (define_struct): a transparent single-field
struct holding a Vec of the element type, modelled as a list. -/
structure Wrapper (α : Type) where
  inner : List α
deriving DecidableEq, Repr

namespace Wrapper

/-- impl_self::new — `Self(inner.into())` for any `inner: impl Into<Vec<Element>>`;
the conversion into the raw vector is the explicit function `f`. -/
def new {α β : Type} (f : β → List α) (b : β) : Wrapper α :=
  ⟨f b⟩

/-- impl_self::push — `self.0.push(value.into())`: convert the value into the
element type and append it to the end of the inner vector. -/
def push {α γ : Type} (f : γ → α) (w : Wrapper α) (v : γ) : Wrapper α :=
  ⟨w.inner ++ [f v]⟩

/-- impl_default — `Self(Default::default())`: the default Vec is empty. -/
def defaultWrapper {α : Type} : Wrapper α :=
  ⟨[]⟩

/-- impl_extend — `self.0.extend(iter)`: append the iterator's items to the
end of the inner vector, in iteration order. -/
def extendElems {α : Type} (w : Wrapper α) (l : List α) : Wrapper α :=
  ⟨w.inner ++ l⟩

/-- impl_self::extend_from — `self.extend(iter.into_iter().map(T::into))`:
convert each item and delegate to Extend. -/
def extendFrom {α γ : Type} (f : γ → α) (w : Wrapper α) (l : List γ) : Wrapper α :=
  w.extendElems (l.map f)

/-- impl_into_iter_own — `self.0.into_iter()`: owned iteration consumes the
wrapper and yields the inner vector's elements in order. -/
def intoIterOwn {α : Type} (w : Wrapper α) : List α :=
  w.inner

/-- impl_into_iter_ref — `self.0.iter()` on `&self`: yields the elements in
order, and the wrapper itself survives the borrow unchanged, which we model
by returning the observed sequence together with the post-state. -/
def intoIterRef {α : Type} (w : Wrapper α) : List α × Wrapper α :=
  (w.inner, w)

/-- impl_deref — `&self.0`: transparent read access to the inner vector. -/
def deref {α : Type} (w : Wrapper α) : List α :=
  w.inner

/-- impl_from_vec — `Self(vec)`: build the wrapper from an owned raw vector. -/
def fromVec {α : Type} (v : List α) : Wrapper α :=
  ⟨v⟩

/-- impl_into_vec — `value.0`: unwrap the wrapper back into the raw vector. -/
def intoVec {α : Type} (w : Wrapper α) : List α :=
  w.inner

/-- impl_from_value — `Self(vec![source.into()])`: a single variant-source
value converts into a one-element wrapper. -/
def fromValue {α β : Type} (f : β → α) (b : β) : Wrapper α :=
  ⟨[f b]⟩

theorem ext_inner {α : Type} (w : Wrapper α) : Wrapper.mk w.inner = w := by
  cases w
  rfl

end Wrapper

theorem getLast?_append_singleton {α : Type} (l : List α) (a : α) :
    (l ++ [a]).getLast? = some a := by
  induction l with
  | nil => rfl
  | cons h t ih =>
      rw [List.cons_append, List.getLast?_cons, ih]
      rfl

/-- Claim C1: for every value v convertible into the element type (conversion
f) and every wrapper w, push increases the length by exactly 1 and makes the
last element equal to the converted value. -/
theorem push_grows_by_one_and_sets_last {α γ : Type} (f : γ → α) (w : Wrapper α) (v : γ) :
    (w.push f v).inner.length = w.inner.length + 1 ∧
    (w.push f v).inner.getLast? = some (f v) := by
  constructor
  · simp [Wrapper.push]
  · exact getLast?_append_singleton w.inner (f v)

/-- Claim C2: for a declared variant-source type with conversion f and any
value t of it, the direct value-to-wrapper conversion yields a wrapper of
length 1 whose sole element is the converted value. -/
theorem from_value_singleton {α β : Type} (f : β → α) (t : β) :
    (Wrapper.fromValue f t).inner.length = 1 ∧
    (Wrapper.fromValue f t).inner = [f t] := by
  exact ⟨rfl, rfl⟩

/-- Claim C3: for every raw sequence s of elements, building the wrapper from
s and unwrapping it back yields s itself; the round trip is the identity. -/
theorem from_vec_into_vec_roundtrip {α : Type} (s : List α) :
    (Wrapper.fromVec s).intoVec = s := by
  rfl

/-- Claim C4: for every finite iterable l of convertible values and wrapper w,
extend_from increases the length by the number of items of l and appends the
converted items at the end in iteration order. -/
theorem extend_from_appends_in_order {α γ : Type} (f : γ → α) (w : Wrapper α) (l : List γ) :
    (w.extendFrom f l).inner.length = w.inner.length + l.length ∧
    (w.extendFrom f l).inner = w.inner ++ l.map f := by
  constructor
  · simp [Wrapper.extendFrom, Wrapper.extendElems]
  · rfl

/-- Claim C5: extend_from over a finite iterable leaves the wrapper in the
same state as pushing each of its items one at a time, in iteration order. -/
theorem extend_from_eq_repeated_push {α γ : Type} (f : γ → α) (w : Wrapper α) (l : List γ) :
    w.extendFrom f l = l.foldl (fun acc v => acc.push f v) w := by
  induction l generalizing w with
  | nil =>
      simp [Wrapper.extendFrom, Wrapper.extendElems, Wrapper.ext_inner]
  | cons h t ih =>
      have step : w.extendFrom f (h :: t) = (w.push f h).extendFrom f t := by
        simp [Wrapper.extendFrom, Wrapper.extendElems, Wrapper.push]
      rw [step, List.foldl_cons, ih]

/-- Claim C6: the default wrapper has length 0 and equals the wrapper
constructed from an empty sequence. -/
theorem default_is_empty {α : Type} :
    (Wrapper.defaultWrapper : Wrapper α).inner.length = 0 ∧
    (Wrapper.defaultWrapper : Wrapper α) = Wrapper.new id ([] : List α) := by
  exact ⟨rfl, rfl⟩

/-- Claim C7: the wrapper is a transparent single-field view of its inner
sequence: transparent access (Deref), construction, push, extend_from and
both raw-vector conversions all observe or produce exactly the inner
sequence's contents, in order, with no hidden elements and no
deduplication. -/
theorem wrapper_transparent_view {α γ : Type} (f : γ → α) (w : Wrapper α) (v : γ)
    (l : List γ) (s : List α) :
    w.deref = w.inner ∧
    (w.intoIterRef).1 = w.inner ∧
    (Wrapper.fromVec s).inner = s ∧
    (w.push f v).inner = w.inner ++ [f v] ∧
    (w.extendFrom f l).inner = w.inner ++ l.map f ∧
    w.intoVec = w.inner := by
  exact ⟨rfl, rfl, rfl, rfl, rfl, rfl⟩

/-- Claim C8: reference iteration over a wrapper holding [a, b, c], invoked
twice in sequence, yields [a, b, c] both times and leaves the wrapper
unchanged after both calls. -/
theorem into_iter_ref_restartable {α : Type} (a b c : α) :
    ((Wrapper.mk [a, b, c]).intoIterRef).1 = [a, b, c] ∧
    (((Wrapper.mk [a, b, c]).intoIterRef).2.intoIterRef).1 = [a, b, c] ∧
    (((Wrapper.mk [a, b, c]).intoIterRef).2.intoIterRef).2 = Wrapper.mk [a, b, c] := by
  exact ⟨rfl, rfl, rfl⟩

/-- Claim C9: owned iteration over a wrapper built from [a, b, c] yields
exactly a, b, c in that order, each exactly once. -/
theorem into_iter_own_in_order {α : Type} (a b c : α) :
    (Wrapper.fromVec [a, b, c]).intoIterOwn = [a, b, c] := by
  rfl

/-- Claim C10: converting a variant-source value directly into a wrapper
produces the same wrapper as pushing that value once onto the default
(empty) wrapper. -/
theorem from_value_eq_push_on_default {α β : Type} (f : β → α) (t : β) :
    Wrapper.fromValue f t = Wrapper.defaultWrapper.push f t := by
  rfl

end VecOfEnum
